import Mathlib

/-!
Verification of `cvxpy/expressions/variable.py`.

The file embeds the two components of that module:

* `upper_tri_to_full n` — the sparse coefficient matrix (built from COO
  triples, converted to CSC) that expands a packed upper-triangular
  vector into the column-major flattening of a full symmetric matrix;
* the `Variable` class — identity, shape, attributes, primal-value
  lifecycle, gradient and canonicalization.

Sparse matrices are modelled by their COO triple lists with rational
values (the source stores the float `1.0`, always exactly representable);
the external affine-operator builders (`lu.*`) are modelled as free term
constructors, as the spec directs for excluded collaborators.
-/

namespace CvxpyVariable

/-! ### upper_tri_to_full -/

/-- The pairs `(i, j)` enumerated by the loop
`for i in range(n): for j in range(i, n):` in `upper_tri_to_full`,
in execution order. -/
def utfPairs (n : Nat) : List (Nat × Nat) :=
  (List.range n).flatMap fun i => (List.range' i (n - i)).map fun j => (i, j)

/-- The COO triples `(row, col, val)` appended by `upper_tri_to_full`:
for the pair `(i, j)` processed at counter value `count` the code appends
`(j*n + i, count, 1.0)` and, when `i ≠ j`, also `(i*n + j, count, 1.0)`.
The counter increments once per pair, so it is the pair's position in the
enumeration, supplied here by `List.enum`. -/
def utfTriples (n : Nat) : List (Nat × Nat × ℚ) :=
  (utfPairs n).enum.flatMap fun x =>
    match x with
    | (count, i, j) =>
      (j * n + i, count, (1 : ℚ)) ::
        (if i ≠ j then [(i * n + j, count, (1 : ℚ))] else [])

/-- The shape `(n*n, entries)` passed to `sp.coo_matrix` in
`upper_tri_to_full`, where `entries = n*(n+1)//2`. -/
def utfShape (n : Nat) : Nat × Nat := (n * n, n * (n + 1) / 2)

/-- Entry `(r, c)` of the matrix returned by `upper_tri_to_full`
(duplicate COO coordinates sum, per the COO-to-CSC conversion). -/
def upper_tri_to_full (n : Nat) (r c : Nat) : ℚ :=
  (((utfTriples n).filter fun t => t.1 == r && t.2.1 == c).map fun t => t.2.2).sum

/-- Sparse matrix–vector product of `upper_tri_to_full n` with a packed
vector `p`: row `r` of `M·p` sums `val * p col` over the stored triples
of row `r`. -/
def utfMulVec (n : Nat) (p : Nat → ℚ) (r : Nat) : ℚ :=
  (((utfTriples n).filter fun t => t.1 == r).map fun t => t.2.2 * p t.2.1).sum

/-- Number of stored entries of column `c` of `upper_tri_to_full n`. -/
def utfColCount (n c : Nat) : Nat :=
  ((utfTriples n).filter fun t => t.2.1 == c).length

/-- `rowStart n i` counts the pairs enumerated before row `i` begins:
row `i'` contributes `n - i'` pairs. -/
def rowStart (n : Nat) : Nat → Nat
  | 0 => 0
  | i + 1 => rowStart n i + (n - i)

/-- Packed index of the pair `(i, j)` (`i ≤ j < n`) in the enumeration
order of `utfPairs`: the value of the source's `count` variable when the
pair is processed. -/
def pidx (n i j : Nat) : Nat := rowStart n i + (j - i)

/-- Specification-side full symmetric matrix: the `n×n` matrix whose
`(a, b)` and `(b, a)` entries both equal `p`'s entry for the pair
`(min a b, max a b)` in the declared packed enumeration order. -/
def specFullSym (n : Nat) (p : Nat → ℚ) (a b : Nat) : ℚ :=
  p (pidx n (min a b) (max a b))

/-- Whether packed index `c` is the index of a diagonal pair `(i, i)`. -/
def isDiagIdx (n c : Nat) : Bool :=
  (List.range n).any fun i => pidx n i i == c

/-- The sample packed vector `[1,2,3,4,5,6]` of the spec's `n = 3`
scenario, as a function on packed indices. -/
def packedEx (k : Nat) : ℚ := [(1 : ℚ), 2, 3, 4, 5, 6].getD k 0

example : utfPairs 3 = [(0,0),(0,1),(0,2),(1,1),(1,2),(2,2)] := by decide
example : (List.range 6).map (utfColCount 3) = [1,2,2,1,2,1] := by decide
example : pidx 3 1 2 = 4 ∧ isDiagIdx 3 3 = true ∧ isDiagIdx 3 4 = false := by decide

/-! ### The packed enumeration order and `pidx` -/

/-- `utfTriples` with the enumeration counter replaced by its closed form
`pidx`; proved equal to `utfTriples` in `utfTriples_eq`. -/
def utfTriplesAlt (n : Nat) : List (Nat × Nat × ℚ) :=
  (List.range n).flatMap fun i => (List.range' i (n - i)).flatMap fun j =>
    (j * n + i, pidx n i j, (1 : ℚ)) ::
      (if i ≠ j then [(i * n + j, pidx n i j, (1 : ℚ))] else [])

lemma enumFrom_append_eq {α : Type} (l₁ l₂ : List α) (k : Nat) :
    (l₁ ++ l₂).enumFrom k = l₁.enumFrom k ++ l₂.enumFrom (k + l₁.length) := by
  induction l₁ generalizing k with
  | nil => simp
  | cons a l ih =>
    simp only [List.cons_append, List.enumFrom_cons, ih (k + 1), List.length_cons]
    have h1 : k + 1 + l.length = k + (l.length + 1) := by omega
    rw [h1]

lemma pidx_succ {n i j : Nat} (h : i ≤ j) : pidx n i (j + 1) = pidx n i j + 1 := by
  simp only [pidx]
  omega

lemma enumFrom_utfRow (n i : Nat) : ∀ (k j0 : Nat), i ≤ j0 →
    (((List.range' j0 k).map fun j => (i, j)).enumFrom (pidx n i j0))
      = (List.range' j0 k).map fun j => (pidx n i j, (i, j)) := by
  intro k
  induction k with
  | zero => intro j0 _; simp
  | succ k ih =>
    intro j0 h
    rw [List.range'_succ]
    simp only [List.map_cons, List.enumFrom_cons]
    rw [← pidx_succ h, ih (j0 + 1) (Nat.le_succ_of_le h)]

lemma enumFrom_utfPairs (n : Nat) : ∀ (m a : Nat), a + m = n →
    (((List.range' a m).flatMap fun i =>
        (List.range' i (n - i)).map fun j => (i, j)).enumFrom (rowStart n a))
      = (List.range' a m).flatMap fun i =>
          (List.range' i (n - i)).map fun j => (pidx n i j, (i, j)) := by
  intro m
  induction m with
  | zero => intro a _; simp
  | succ m ih =>
    intro a ha
    rw [List.range'_succ]
    simp only [List.flatMap_cons]
    rw [enumFrom_append_eq]
    have hlen : ((List.range' a (n - a)).map fun j => (a, j)).length = n - a := by
      simp
    rw [hlen]
    have hrow : rowStart n a + (n - a) = rowStart n (a + 1) := rfl
    rw [hrow, ih (a + 1) (by omega)]
    have hinner : (((List.range' a (n - a)).map fun j => (a, j)).enumFrom (rowStart n a))
        = (List.range' a (n - a)).map fun j => (pidx n a j, (a, j)) := by
      have := enumFrom_utfRow n a (n - a) a (Nat.le_refl a)
      simpa [pidx] using this
    rw [hinner]

lemma utfTriples_eq (n : Nat) : utfTriples n = utfTriplesAlt n := by
  have henum : (utfPairs n).enum
      = (List.range n).flatMap fun i =>
          (List.range' i (n - i)).map fun j => (pidx n i j, (i, j)) := by
    have h0 : rowStart n 0 = 0 := rfl
    rw [utfPairs, List.enum_eq_enumFrom, ← h0, List.range_eq_range']
    exact enumFrom_utfPairs n n 0 (by omega)
  rw [utfTriples, henum, utfTriplesAlt]
  rw [List.flatMap_assoc]
  simp only [List.flatMap_map, Function.comp]

/-! ### Sums over the triple list -/

lemma sum_map_filter {α M : Type} [AddCommMonoid M] (q : α → Bool) (g : α → M) (l : List α) :
    ((l.filter q).map g).sum = (l.map fun x => if q x then g x else 0).sum := by
  induction l with
  | nil => simp
  | cons a l ih => by_cases h : q a <;> simp [List.filter_cons, h, ih]

lemma length_filter_eq_sum {α : Type} (q : α → Bool) (l : List α) :
    (l.filter q).length = (l.map fun x => if q x then (1 : Nat) else 0).sum := by
  induction l with
  | nil => simp
  | cons a l ih => by_cases h : q a <;> simp [List.filter_cons, h, ih, Nat.add_comm]

lemma sum_map_flatMap {α β M : Type} [AddCommMonoid M] (g : β → M) (f : α → List β)
    (l : List α) :
    ((l.flatMap f).map g).sum = (l.map fun x => ((f x).map g).sum).sum := by
  induction l with
  | nil => simp
  | cons a l ih => simp [List.flatMap_cons, ih]

lemma list_sum_range {M : Type} [AddCommMonoid M] (f : Nat → M) (n : Nat) :
    ((List.range n).map f).sum = ∑ i ∈ Finset.range n, f i := by
  induction n with
  | zero => simp
  | succ n ih => rw [List.range_succ]; simp [ih, Finset.sum_range_succ]

lemma list_sum_range' {M : Type} [AddCommMonoid M] (f : Nat → M) (a m : Nat) :
    ((List.range' a m).map f).sum = ∑ k ∈ Finset.range m, f (a + k) := by
  rw [List.range'_eq_map_range, List.map_map]
  exact list_sum_range _ m

/-- `utfMulVec` as a double sum over the pair enumeration: the pair
`(i, i+k)` contributes its `(j*n+i)`-row entry and, off the diagonal,
its `(i*n+j)`-row entry. -/
lemma utfMulVec_as_sum (n : Nat) (p : Nat → ℚ) (r : Nat) :
    utfMulVec n p r
      = ∑ i ∈ Finset.range n, ∑ k ∈ Finset.range (n - i),
          ((if (i + k) * n + i = r then p (pidx n i (i + k)) else 0)
            + (if i ≠ i + k ∧ i * n + (i + k) = r then p (pidx n i (i + k)) else 0)) := by
  rw [utfMulVec, utfTriples_eq, utfTriplesAlt, sum_map_filter, sum_map_flatMap, list_sum_range]
  refine Finset.sum_congr rfl ?_
  intro i _
  rw [sum_map_flatMap, list_sum_range']
  refine Finset.sum_congr rfl ?_
  intro k _
  by_cases hij : i = i + k
  · rw [← hij]
    simp [beq_iff_eq]
  · simp only [if_neg (by omega : ¬ i = i + k), ne_eq, hij, not_false_eq_true, if_pos]
    simp [beq_iff_eq, hij]

/-- A flattened index `j*n + i` with `i < n` determines `i` and `j`. -/
lemma encode_inj {n i j a b : Nat} (hi : i < n) (ha : a < n)
    (h : j * n + i = b * n + a) : i = a ∧ j = b := by
  have h1 : (j * n + i) % n = i := by
    rw [Nat.mul_comm j n, Nat.mul_add_mod, Nat.mod_eq_of_lt hi]
  have h2 : (b * n + a) % n = a := by
    rw [Nat.mul_comm b n, Nat.mul_add_mod, Nat.mod_eq_of_lt ha]
  have hia : i = a := by rw [← h1, ← h2, h]
  refine ⟨hia, ?_⟩
  have hjb : j * n = b * n := by omega
  exact Nat.eq_of_mul_eq_mul_right (by omega) hjb

/-- Row `b*n + a` of `upper_tri_to_full n · p` picks out `p`'s entry for
the pair `(min a b, max a b)`. -/
lemma utfMulVec_decode (n : Nat) (p : Nat → ℚ) (a b : Nat) (ha : a < n) (hb : b < n) :
    utfMulVec n p (b * n + a) = p (pidx n (min a b) (max a b)) := by
  rw [utfMulVec_as_sum]
  rcases le_or_lt a b with hab | hab
  · -- the unique contribution comes from pair (a, b) via its (j*n+i)-row entry
    rw [Nat.min_eq_left hab, Nat.max_eq_right hab]
    rw [Finset.sum_eq_single a]
    · rw [Finset.sum_eq_single (b - a)]
      · have hba : a + (b - a) = b := by omega
        rw [hba]
        have h1 : b * n + a = b * n + a := rfl
        rw [if_pos h1]
        have h2 : ¬ (a ≠ b ∧ a * n + b = b * n + a) := by
          rintro ⟨hne, heq⟩
          exact hne (encode_inj hb ha heq).2
        rw [if_neg h2, add_zero]
      · intro k hkm hk
        have hkn : k < n - a := Finset.mem_range.mp hkm
        have e1 : ¬ ((a + k) * n + a = b * n + a) := by
          intro heq
          have := (encode_inj ha ha heq).2
          omega
        have e2 : ¬ (a ≠ a + k ∧ a * n + (a + k) = b * n + a) := by
          rintro ⟨hne, heq⟩
          have := (encode_inj (by omega : a + k < n) ha heq).1
          omega
        rw [if_neg e1, if_neg e2, add_zero]
      · intro hmem
        exact absurd (Finset.mem_range.mpr (by omega)) hmem
    · intro i hi hne
      refine Finset.sum_eq_zero ?_
      intro k hk
      have hin : i < n := Finset.mem_range.mp hi
      have hkn : k < n - i := Finset.mem_range.mp hk
      have e1 : ¬ ((i + k) * n + i = b * n + a) := by
        intro heq
        exact hne (encode_inj hin ha heq).1
      have e2 : ¬ (i ≠ i + k ∧ i * n + (i + k) = b * n + a) := by
        rintro ⟨hnk, heq⟩
        have h3 := encode_inj (by omega : i + k < n) ha heq
        omega
      rw [if_neg e1, if_neg e2, add_zero]
    · intro hmem
      exact absurd (Finset.mem_range.mpr (by omega)) hmem
  · -- b < a: the unique contribution comes from pair (b, a) via its (i*n+j)-row entry
    rw [Nat.min_eq_right (by omega), Nat.max_eq_left (by omega)]
    rw [Finset.sum_eq_single b]
    · rw [Finset.sum_eq_single (a - b)]
      · have hba : b + (a - b) = a := by omega
        rw [hba]
        have e1 : ¬ (a * n + b = b * n + a) := by
          intro heq
          have := (encode_inj hb ha heq).1
          omega
        have e2 : b ≠ a ∧ b * n + a = b * n + a := ⟨by omega, rfl⟩
        rw [if_neg e1, if_pos e2, zero_add]
      · intro k hkm hk
        have hkn : k < n - b := Finset.mem_range.mp hkm
        have e1 : ¬ ((b + k) * n + b = b * n + a) := by
          intro heq
          have := (encode_inj hb ha heq).1
          omega
        have e2 : ¬ (b ≠ b + k ∧ b * n + (b + k) = b * n + a) := by
          rintro ⟨hne, heq⟩
          have h3 := encode_inj (by omega : b + k < n) ha heq
          omega
        rw [if_neg e1, if_neg e2, add_zero]
      · intro hmem
        exact absurd (Finset.mem_range.mpr (by omega)) hmem
    · intro i hi hne
      refine Finset.sum_eq_zero ?_
      intro k hk
      have hin : i < n := Finset.mem_range.mp hi
      have hkn : k < n - i := Finset.mem_range.mp hk
      have e1 : ¬ ((i + k) * n + i = b * n + a) := by
        intro heq
        have h3 := encode_inj hin ha heq
        omega
      have e2 : ¬ (i ≠ i + k ∧ i * n + (i + k) = b * n + a) := by
        rintro ⟨hnk, heq⟩
        have h3 := encode_inj (by omega : i + k < n) ha heq
        omega
      rw [if_neg e1, if_neg e2, add_zero]
    · intro hmem
      exact absurd (Finset.mem_range.mpr (by omega)) hmem

/-! ### Properties of the packed index -/

lemma rowStart_succ (n a : Nat) : rowStart n (a + 1) = rowStart n a + (n - a) := rfl

lemma rowStart_mono (n : Nat) {a b : Nat} (h : a ≤ b) : rowStart n a ≤ rowStart n b := by
  induction b with
  | zero =>
    have h0 : a = 0 := by omega
    subst h0
    exact Nat.le_refl _
  | succ b ih =>
    rcases Nat.lt_or_ge a (b + 1) with h1 | h1
    · have h2 := ih (by omega)
      rw [rowStart_succ]
      omega
    · have h0 : a = b + 1 := by omega
      subst h0
      exact Nat.le_refl _

lemma pidx_lt_rowStart_succ {n i j : Nat} (hij : i ≤ j) (hj : j < n) :
    pidx n i j < rowStart n (i + 1) := by
  rw [rowStart_succ, pidx]
  omega

lemma rowStart_le_pidx (n i j : Nat) : rowStart n i ≤ pidx n i j := Nat.le_add_right _ _

lemma pidx_inj {n i j i' j' : Nat} (h1 : i ≤ j) (h2 : j < n) (h3 : i' ≤ j') (h4 : j' < n)
    (h : pidx n i j = pidx n i' j') : i = i' ∧ j = j' := by
  have hii : i = i' := by
    rcases Nat.lt_trichotomy i i' with hlt | heq | hgt
    · have c1 := pidx_lt_rowStart_succ h1 h2
      have c2 := rowStart_mono n (show i + 1 ≤ i' by omega)
      have c3 := rowStart_le_pidx n i' j'
      omega
    · exact heq
    · have c1 := pidx_lt_rowStart_succ h3 h4
      have c2 := rowStart_mono n (show i' + 1 ≤ i by omega)
      have c3 := rowStart_le_pidx n i j
      omega
  subst hii
  refine ⟨rfl, ?_⟩
  simp only [pidx] at h
  omega

lemma pidx_surj (n : Nat) : ∀ (m i c : Nat), i + m = n → rowStart n i ≤ c →
    c < rowStart n n → ∃ a b, a ≤ b ∧ b < n ∧ pidx n a b = c := by
  intro m
  induction m with
  | zero =>
    intro i c h1 h2 h3
    have h0 : i = n := by omega
    subst h0
    omega
  | succ m ih =>
    intro i c h1 h2 h3
    by_cases hlt : c < rowStart n (i + 1)
    · refine ⟨i, i + (c - rowStart n i), by omega, ?_, ?_⟩
      · rw [rowStart_succ] at hlt
        omega
      · simp only [pidx]
        omega
    · exact ih (i + 1) c (by omega) (by omega) h3

/-- The total number of enumerated pairs is `n*(n+1)/2`. -/
lemma rowStart_top (n : Nat) : rowStart n n = n * (n + 1) / 2 := by
  have key : ∀ i, i ≤ n → 2 * rowStart n i + i * i = 2 * (i * n) + i := by
    intro i
    induction i with
    | zero => simp [rowStart]
    | succ i ih =>
      intro h
      have h1 := ih (by omega)
      have h2 : (i + 1) * (i + 1) = i * i + 2 * i + 1 := by ring
      have h3 : (i + 1) * n = i * n + n := by ring
      rw [rowStart_succ]
      omega
  have h1 := key n (Nat.le_refl n)
  have h2 : n * (n + 1) = n * n + n := by ring
  omega

/-! ### Column structure -/

lemma utfColCount_as_sum (n c : Nat) :
    utfColCount n c
      = ∑ i ∈ Finset.range n, ∑ k ∈ Finset.range (n - i),
          ((if pidx n i (i + k) = c then 1 else 0)
            + (if i ≠ i + k ∧ pidx n i (i + k) = c then 1 else 0)) := by
  rw [utfColCount, utfTriples_eq, utfTriplesAlt, length_filter_eq_sum, sum_map_flatMap,
    list_sum_range]
  refine Finset.sum_congr rfl ?_
  intro i _
  rw [sum_map_flatMap, list_sum_range']
  refine Finset.sum_congr rfl ?_
  intro k _
  by_cases hij : i = i + k
  · rw [← hij]
    simp [beq_iff_eq]
  · simp only [if_neg (by omega : ¬ i = i + k), ne_eq, hij, not_false_eq_true, if_pos]
    simp [beq_iff_eq, hij]

/-- The column of the pair `(i0, j0)` stores one entry on the diagonal and
two entries off it. -/
lemma utfColCount_eval {n i0 j0 : Nat} (h1 : i0 ≤ j0) (h2 : j0 < n) :
    utfColCount n (pidx n i0 j0) = if i0 = j0 then 1 else 2 := by
  rw [utfColCount_as_sum]
  rw [Finset.sum_eq_single i0]
  · rw [Finset.sum_eq_single (j0 - i0)]
    · have hb : i0 + (j0 - i0) = j0 := by omega
      rw [hb]
      by_cases hd : i0 = j0
      · rw [if_pos rfl, if_neg (by tauto), if_pos hd]
      · rw [if_pos rfl, if_pos ⟨hd, rfl⟩, if_neg hd]
    · intro k hkm hk
      have hkn : k < n - i0 := Finset.mem_range.mp hkm
      have e1 : ¬ (pidx n i0 (i0 + k) = pidx n i0 j0) := by
        intro heq
        have := pidx_inj (by omega) (by omega) h1 h2 heq
        omega
      rw [if_neg e1, if_neg (by tauto), add_zero]
    · intro hmem
      exact absurd (Finset.mem_range.mpr (by omega)) hmem
  · intro i hi hne
    refine Finset.sum_eq_zero ?_
    intro k hk
    have hin : i < n := Finset.mem_range.mp hi
    have hkn : k < n - i := Finset.mem_range.mp hk
    have e1 : ¬ (pidx n i (i + k) = pidx n i0 j0) := by
      intro heq
      have := pidx_inj (by omega : i ≤ i + k) (by omega) h1 h2 heq
      omega
    rw [if_neg e1, if_neg (by tauto), add_zero]
  · intro hmem
    exact absurd (Finset.mem_range.mpr (by omega)) hmem

/-- Every stored triple lies inside the declared `(n*n, n*(n+1)/2)` shape
and carries the value `1`. -/
lemma utfTriples_mem {n : Nat} {t : Nat × Nat × ℚ} (ht : t ∈ utfTriples n) :
    t.1 < n * n ∧ t.2.1 < n * (n + 1) / 2 ∧ t.2.2 = 1 := by
  rw [utfTriples_eq, utfTriplesAlt] at ht
  simp only [List.mem_flatMap, List.mem_range, List.mem_range'_1] at ht
  obtain ⟨i, hi, j, hj, hmem⟩ := ht
  have hjn : j < n := by omega
  have hij : i ≤ j := hj.1
  have hcol : pidx n i j < n * (n + 1) / 2 := by
    rw [← rowStart_top]
    calc pidx n i j < rowStart n (i + 1) := pidx_lt_rowStart_succ hij hjn
    _ ≤ rowStart n n := rowStart_mono n (by omega)
  have hrow1 : j * n + i < n * n := by
    have e : (j + 1) * n = j * n + n := by ring
    have le : (j + 1) * n ≤ n * n := Nat.mul_le_mul_right n (by omega)
    omega
  have hrow2 : i * n + j < n * n := by
    have e : (i + 1) * n = i * n + n := by ring
    have le : (i + 1) * n ≤ n * n := Nat.mul_le_mul_right n (by omega)
    omega
  rcases List.mem_cons.mp hmem with h | h
  · subst h
    exact ⟨hrow1, hcol, rfl⟩
  · by_cases hd : i = j
    · rw [if_neg (by simpa using hd)] at h
      exact absurd h (List.not_mem_nil t)
    · rw [if_pos hd] at h
      rcases List.mem_singleton.mp h with rfl
      exact ⟨hrow2, hcol, rfl⟩

/-! ### Claims about `upper_tri_to_full` -/

/-- **C1.** For every `n ≥ 1` and packed vector `p` enumerating the upper
triangle in the order "row `i` from `0`, column `j` from `i`", the product
of `upper_tri_to_full n` with `p` is the column-major flattening of the
full symmetric matrix whose `(i,j)` and `(j,i)` entries equal `p`'s entry
for `(i,j)`; in particular for `n = 3` the packed vector `[1,2,3,4,5,6]`
expands to `[1,2,3,2,4,5,3,5,6]`. -/
theorem claim1_expansion_correct :
    (∀ (n : Nat) (p : Nat → ℚ) (r : Nat), 1 ≤ n → r < n * n →
        utfMulVec n p r = specFullSym n p (r % n) (r / n))
    ∧ (List.range 9).map (utfMulVec 3 packedEx) = [1, 2, 3, 2, 4, 5, 3, 5, 6] := by
  have gen : ∀ (n : Nat) (p : Nat → ℚ) (r : Nat), 1 ≤ n → r < n * n →
      utfMulVec n p r = specFullSym n p (r % n) (r / n) := by
    intro n p r hn hr
    have hn0 : 0 < n := hn
    have ha : r % n < n := Nat.mod_lt _ hn0
    have hb : r / n < n := (Nat.div_lt_iff_lt_mul hn0).mpr hr
    have hd := utfMulVec_decode n p (r % n) (r / n) ha hb
    have hr' : r / n * n + r % n = r := by
      have h := Nat.div_add_mod r n
      rw [Nat.mul_comm] at h
      exact h
    rw [hr'] at hd
    exact hd
  refine ⟨gen, ?_⟩
  have g0 : utfMulVec 3 packedEx 0 = packedEx (pidx 3 (min 0 0) (max 0 0)) :=
    utfMulVec_decode 3 packedEx 0 0 (by omega) (by omega)
  have g1 : utfMulVec 3 packedEx 1 = packedEx (pidx 3 (min 1 0) (max 1 0)) :=
    utfMulVec_decode 3 packedEx 1 0 (by omega) (by omega)
  have g2 : utfMulVec 3 packedEx 2 = packedEx (pidx 3 (min 2 0) (max 2 0)) :=
    utfMulVec_decode 3 packedEx 2 0 (by omega) (by omega)
  have g3 : utfMulVec 3 packedEx 3 = packedEx (pidx 3 (min 0 1) (max 0 1)) :=
    utfMulVec_decode 3 packedEx 0 1 (by omega) (by omega)
  have g4 : utfMulVec 3 packedEx 4 = packedEx (pidx 3 (min 1 1) (max 1 1)) :=
    utfMulVec_decode 3 packedEx 1 1 (by omega) (by omega)
  have g5 : utfMulVec 3 packedEx 5 = packedEx (pidx 3 (min 2 1) (max 2 1)) :=
    utfMulVec_decode 3 packedEx 2 1 (by omega) (by omega)
  have g6 : utfMulVec 3 packedEx 6 = packedEx (pidx 3 (min 0 2) (max 0 2)) :=
    utfMulVec_decode 3 packedEx 0 2 (by omega) (by omega)
  have g7 : utfMulVec 3 packedEx 7 = packedEx (pidx 3 (min 1 2) (max 1 2)) :=
    utfMulVec_decode 3 packedEx 1 2 (by omega) (by omega)
  have g8 : utfMulVec 3 packedEx 8 = packedEx (pidx 3 (min 2 2) (max 2 2)) :=
    utfMulVec_decode 3 packedEx 2 2 (by omega) (by omega)
  have hrange : List.range 9 = [0, 1, 2, 3, 4, 5, 6, 7, 8] := by decide
  rw [hrange]
  simp only [List.map_cons, List.map_nil, g0, g1, g2, g3, g4, g5, g6, g7, g8]
  rfl

theorem claim1_witness :
    (1 ≤ 3 ∧ 7 < 3 * 3)
      ∧ utfMulVec 3 packedEx 7 = specFullSym 3 packedEx (7 % 3) (7 / 3) :=
  ⟨by omega, claim1_expansion_correct.1 3 packedEx 7 (by omega) (by omega)⟩

/-- Entry `(a, b)` of the column-major reshape of `upper_tri_to_full n · p`
into an `n×n` matrix. -/
def expandEntry (n : Nat) (p : Nat → ℚ) (a b : Nat) : ℚ := utfMulVec n p (b * n + a)

/-- **C4.** For every `n ≥ 1` and packed `p`, the `(n,n)` column-major
reshape of `upper_tri_to_full n · p` is symmetric and its diagonal entries
equal `p`'s diagonal entries in the declared packed order. -/
theorem claim4_reshape_symmetric :
    ∀ (n : Nat) (p : Nat → ℚ), 1 ≤ n →
      (∀ a b, a < n → b < n → expandEntry n p a b = expandEntry n p b a)
      ∧ (∀ i, i < n → expandEntry n p i i = p (pidx n i i)) := by
  intro n p _
  constructor
  · intro a b ha hb
    rw [expandEntry, expandEntry, utfMulVec_decode n p a b ha hb,
      utfMulVec_decode n p b a hb ha, min_comm b a, max_comm b a]
  · intro i hi
    rw [expandEntry, utfMulVec_decode n p i i hi hi, min_self, max_self]

theorem claim4_witness :
    (1 ≤ 3 ∧ 2 < 3 ∧ 1 < 3)
      ∧ expandEntry 3 packedEx 2 1 = expandEntry 3 packedEx 1 2
      ∧ expandEntry 3 packedEx 2 2 = packedEx (pidx 3 2 2) :=
  ⟨by omega, (claim4_reshape_symmetric 3 packedEx (by omega)).1 2 1 (by omega) (by omega),
    (claim4_reshape_symmetric 3 packedEx (by omega)).2 2 (by omega)⟩

/-- **C8.** For every `n ≥ 0` the matrix built by `upper_tri_to_full n`
has shape `(n*n, n*(n+1)/2)`, with every stored entry inside that shape
and equal to `1`; a column holds exactly one entry when it is a diagonal
packed index and exactly two otherwise (at distinct rows); `n = 0` gives
the empty `(0,0)` map and `n = 1` the `1×1` identity. -/
theorem claim8_shape_and_columns :
    ∀ n : Nat,
      utfShape n = (n * n, n * (n + 1) / 2)
      ∧ (∀ t ∈ utfTriples n, t.1 < n * n ∧ t.2.1 < n * (n + 1) / 2 ∧ t.2.2 = 1)
      ∧ (∀ c, c < n * (n + 1) / 2 → utfColCount n c = if isDiagIdx n c then 1 else 2)
      ∧ (∀ i j, i ≤ j → j < n → i ≠ j → j * n + i ≠ i * n + j)
      ∧ (utfShape 0 = (0, 0) ∧ utfTriples 0 = [])
      ∧ (utfShape 1 = (1, 1) ∧ utfTriples 1 = [(0, 0, 1)]) := by
  intro n
  refine ⟨rfl, ?_, ?_, ?_, ⟨rfl, rfl⟩, ⟨rfl, rfl⟩⟩
  · intro t ht
    exact utfTriples_mem ht
  · intro c hc
    rw [← rowStart_top] at hc
    obtain ⟨i0, j0, hij, hj, hp⟩ :=
      pidx_surj n n 0 c (by omega) (Nat.zero_le c) hc
    rw [← hp, utfColCount_eval hij hj]
    by_cases hd : i0 = j0
    · subst hd
      have htrue : isDiagIdx n (pidx n i0 i0) = true := by
        rw [isDiagIdx, List.any_eq_true]
        exact ⟨i0, List.mem_range.mpr (by omega), by simp⟩
      rw [htrue]
      simp
    · have hfalse : isDiagIdx n (pidx n i0 j0) = false := by
        rw [isDiagIdx, List.any_eq_false]
        intro x hx
        rw [List.mem_range] at hx
        rw [beq_iff_eq]
        intro heq
        have := pidx_inj (Nat.le_refl x) hx hij hj heq
        omega
      rw [hfalse, if_neg hd]
      rfl
  · intro i j hij hjn hne heq
    have := encode_inj (by omega : i < n) (by omega : j < n) heq
    omega

theorem claim8_witness :
    (4 < 3 * (3 + 1) / 2) ∧ utfColCount 3 4 = if isDiagIdx 3 4 then 1 else 2 :=
  ⟨by omega, (claim8_shape_and_columns 3).2.2.1 4 (by omega)⟩

/-! ### The Variable class -/

/-- The attribute flags consulted by `Variable.canonicalize`. -/
structure Attributes where
  nonneg : Bool
  nonpos : Bool
  symmetric : Bool
  PSD : Bool
  NSD : Bool
deriving DecidableEq

/-- State of a `Variable` instance: identity, shape, display name
(`_name`), attribute flags and the mutable `primal_value` slot.  The
value type `V` abstracts the numeric arrays handled by the excluded base
class. -/
structure Variable (V : Type) where
  id : Nat
  shape : List Nat
  vname : String
  attributes : Attributes
  primal_value : Option V
deriving DecidableEq

/-- `Variable.__init__`: an omitted `var_id` takes the fresh id produced
by the external generator `lu.get_id()` (passed in as `fresh_id`), an
omitted name becomes the prefix-plus-id default, and the primal value
starts unset.  The shape is stored as given (spec §4.2: "Store `shape`,
id, name, attributes verbatim"). -/
def Variable.make (V : Type) (shape : List Nat) (name : Option String)
    (var_id : Option Nat) (attrs : Attributes) (fresh_id : Nat) : Variable V :=
  let i := var_id.getD fresh_id
  { id := i
    shape := shape
    vname := name.getD ("var" ++ toString i)
    attributes := attrs
    primal_value := none }

/-- Modelled from the spec: `Leaf.is_nonneg` is not under `src/`; per
§4.5 the first dispatch branch fires on the `nonneg` attribute. -/
def Variable.is_nonneg {V : Type} (v : Variable V) : Bool := v.attributes.nonneg

/-- Modelled from the spec: `Leaf.is_nonpos` is not under `src/`; per
§4.5 the second dispatch branch fires on the `nonpos` attribute. -/
def Variable.is_nonpos {V : Type} (v : Variable V) : Bool := v.attributes.nonpos

/-- Modelled from the spec: `Leaf.is_symmetric` is not under `src/`; per
§4.5 the symmetric packing applies when `symmetric` is set directly or
implied by `PSD`/`NSD`. -/
def Variable.is_symmetric {V : Type} (v : Variable V) : Bool :=
  v.attributes.symmetric || v.attributes.PSD || v.attributes.NSD

/-- Modelled from the spec: the affine-operator builders `lu.create_var`,
`lu.create_const`, `lu.mul_expr`, `lu.reshape` and `lu.neg` are excluded
black boxes (§6), modelled as free term constructors recording their
arguments.  `const n sh` records the constant `upper_tri_to_full n` with
declared shape `sh`. -/
inductive LinOp where
  | var : List Nat → Nat → LinOp
  | const : Nat → Nat × Nat → LinOp
  | mul : LinOp → LinOp → Nat × Nat → LinOp
  | reshape : LinOp → Nat × Nat → LinOp
  | neg : LinOp → LinOp
deriving DecidableEq

/-- Modelled from the spec: `lu.create_geq`, `lu.create_leq` and the
`PSD` constraint class are excluded collaborators (§6), modelled as
opaque constraint values tagged with their affine argument. -/
inductive Constr where
  | geq : LinOp → Constr
  | leq : LinOp → Constr
  | psd : LinOp → Constr
deriving DecidableEq

/-- `Variable.name`: returns `self._name`. -/
def Variable.name {V : Type} (v : Variable V) : String := v.vname

/-- `Variable.save_value`: stores the argument as `self.primal_value`
unchanged; the block that would re-expand a packed symmetric vector is
commented out in the source. -/
def Variable.save_value {V : Type} (v : Variable V) (value : Option V) : Variable V :=
  { v with primal_value := value }

/-- The `value` property getter: returns `self.primal_value`. -/
def Variable.value {V : Type} (v : Variable V) : Option V := v.primal_value

/-- The `value` property setter:
`val = self._validate_value(val); self.save_value(val)`.  The delegated
validation (`Leaf._validate_value`, excluded) is passed in as `validate`;
a validation error propagates before `save_value` runs, so the instance
is returned unchanged alongside the error. -/
def Variable.setValue {V E : Type} (validate : Option V → Except E (Option V))
    (v : Variable V) (val : Option V) : Variable V × Option E :=
  match validate val with
  | Except.error e => (v, some e)
  | Except.ok w => (v.save_value w, none)

/-- A sparse matrix as returned by `sp.eye(...).tocsc()`. -/
structure SpMat where
  rows : Nat
  cols : Nat
  entry : Nat → Nat → ℚ

/-- `sp.eye(k).tocsc()`: the `k×k` sparse identity. -/
def sp_eye (k : Nat) : SpMat :=
  ⟨k, k, fun r c => if r = c ∧ r < k then 1 else 0⟩

/-- `Variable.grad`: `{self: sp.eye(self.shape[0]*self.shape[1]).tocsc()}`.
The dict literal has the single key `self`; each indexing of a tuple with
fewer entries raises `IndexError`, modelled by `none`. -/
def Variable.grad {V : Type} (v : Variable V) : Option (List (Variable V × SpMat)) := do
  let d0 ← v.shape[0]?
  let d1 ← v.shape[1]?
  pure [(v, sp_eye (d0 * d1))]

/-- `Variable.variables`: returns `[self]`. -/
def Variable.variablesOp {V : Type} (v : Variable V) : List (Variable V) := [v]

/-- `Variable.canonicalize`: builds the affine term (packed-and-expanded
when `is_symmetric()`, indexing `self.shape[0]`; a plain leaf otherwise)
followed by the attribute dispatch producing at most one constraint. -/
def Variable.canonicalize {V : Type} (v : Variable V) : Option (LinOp × List Constr) :=
  let objOpt : Option LinOp :=
    if v.is_symmetric then
      match v.shape[0]? with
      | none => none
      | some n =>
        let shape := (n * (n + 1) / 2, 1)
        let obj := LinOp.var [shape.1, shape.2] v.id
        let mat := LinOp.const n (n * n, shape.1)
        let obj2 := LinOp.mul mat obj (n * n, 1)
        some (LinOp.reshape obj2 (n, n))
    else some (LinOp.var v.shape v.id)
  match objOpt with
  | none => none
  | some obj =>
    some (obj,
      if v.is_nonneg then [Constr.geq obj]
      else if v.is_nonpos then [Constr.leq obj]
      else if v.attributes.PSD then [Constr.psd obj]
      else if v.attributes.NSD then [Constr.psd (LinOp.neg obj)]
      else [])

/-- Whether a stored shape is a square 2-tuple. -/
def squareShape : List Nat → Bool
  | [a, b] => a == b
  | _ => false

/-- Well-constructed variable (spec §3 invariants): a variable whose
symmetric attribute is set, directly or via `PSD`/`NSD`, has a square
`(n, n)` shape. -/
def WF {V : Type} (v : Variable V) : Prop :=
  v.is_symmetric = true → squareShape v.shape = true

lemma squareShape_eq : ∀ {s : List Nat}, squareShape s = true → ∃ n, s = [n, n] := by
  intro s h
  match s with
  | [a, b] =>
    simp only [squareShape, beq_iff_eq] at h
    exact ⟨a, by rw [h]⟩
  | [] => simp [squareShape] at h
  | [a] => simp [squareShape] at h
  | a :: b :: c :: t => simp [squareShape] at h

/-- The canonical affine term of a symmetric variable with shape `[n, n]`. -/
def symTerm (n vid : Nat) : LinOp :=
  LinOp.reshape
    (LinOp.mul (LinOp.const n (n * n, n * (n + 1) / 2))
      (LinOp.var [n * (n + 1) / 2, 1] vid) (n * n, 1)) (n, n)

lemma canonicalize_sym {V : Type} (v : Variable V) {n : Nat}
    (hs : v.is_symmetric = true) (hshape : v.shape = [n, n]) :
    v.canonicalize = some (symTerm n v.id,
      if v.is_nonneg then [Constr.geq (symTerm n v.id)]
      else if v.is_nonpos then [Constr.leq (symTerm n v.id)]
      else if v.attributes.PSD then [Constr.psd (symTerm n v.id)]
      else if v.attributes.NSD then [Constr.psd (LinOp.neg (symTerm n v.id))]
      else []) := by
  rw [Variable.canonicalize, hs, hshape]
  simp [symTerm]

lemma canonicalize_plain {V : Type} (v : Variable V)
    (hs : v.is_symmetric = false) :
    v.canonicalize = some (LinOp.var v.shape v.id,
      if v.is_nonneg then [Constr.geq (LinOp.var v.shape v.id)]
      else if v.is_nonpos then [Constr.leq (LinOp.var v.shape v.id)]
      else if v.attributes.PSD then [Constr.psd (LinOp.var v.shape v.id)]
      else if v.attributes.NSD then [Constr.psd (LinOp.neg (LinOp.var v.shape v.id))]
      else []) := by
  rw [Variable.canonicalize, hs]
  simp

/-- A well-constructed scalar variable: empty shape, no attributes,
matching the constructor's default `shape=()`. -/
def scalarVar : Variable Unit :=
  { id := 0
    shape := []
    vname := "var0"
    attributes := ⟨false, false, false, false, false⟩
    primal_value := none }

/-- The spec's concrete scenario: a variable of shape `(2, 3)` with no
attributes. -/
def exVar23 : Variable Unit :=
  { id := 1
    shape := [2, 3]
    vname := "var1"
    attributes := ⟨false, false, false, false, false⟩
    primal_value := none }

/-- A symmetric `3×3` example variable. -/
def exVarSym : Variable Unit :=
  { id := 2
    shape := [3, 3]
    vname := "var2"
    attributes := ⟨false, false, true, false, false⟩
    primal_value := none }

/-! ### Claims about the Variable class -/

/-- **C2.** For every well-constructed variable, `canonicalize` emits at
most one auxiliary constraint, chosen in the fixed priority order
nonneg, nonpos, PSD, NSD over the affine term (NSD on its negation),
and none when no flag is set. -/
theorem claim2_constraint_dispatch {V : Type} :
    ∀ v : Variable V, WF v →
      ∃ obj cs, v.canonicalize = some (obj, cs)
        ∧ cs.length ≤ 1
        ∧ (v.is_nonneg = true → cs = [Constr.geq obj])
        ∧ (v.is_nonneg = false → v.is_nonpos = true → cs = [Constr.leq obj])
        ∧ (v.is_nonneg = false → v.is_nonpos = false → v.attributes.PSD = true →
            cs = [Constr.psd obj])
        ∧ (v.is_nonneg = false → v.is_nonpos = false → v.attributes.PSD = false →
            v.attributes.NSD = true → cs = [Constr.psd (LinOp.neg obj)])
        ∧ (v.is_nonneg = false → v.is_nonpos = false → v.attributes.PSD = false →
            v.attributes.NSD = false → cs = []) := by
  intro v hwf
  have main : ∀ obj : LinOp,
      (if v.is_nonneg then [Constr.geq obj]
        else if v.is_nonpos then [Constr.leq obj]
        else if v.attributes.PSD then [Constr.psd obj]
        else if v.attributes.NSD then [Constr.psd (LinOp.neg obj)]
        else []).length ≤ 1
      ∧ (v.is_nonneg = true →
          (if v.is_nonneg then [Constr.geq obj]
            else if v.is_nonpos then [Constr.leq obj]
            else if v.attributes.PSD then [Constr.psd obj]
            else if v.attributes.NSD then [Constr.psd (LinOp.neg obj)]
            else []) = [Constr.geq obj])
      ∧ (v.is_nonneg = false → v.is_nonpos = true →
          (if v.is_nonneg then [Constr.geq obj]
            else if v.is_nonpos then [Constr.leq obj]
            else if v.attributes.PSD then [Constr.psd obj]
            else if v.attributes.NSD then [Constr.psd (LinOp.neg obj)]
            else []) = [Constr.leq obj])
      ∧ (v.is_nonneg = false → v.is_nonpos = false → v.attributes.PSD = true →
          (if v.is_nonneg then [Constr.geq obj]
            else if v.is_nonpos then [Constr.leq obj]
            else if v.attributes.PSD then [Constr.psd obj]
            else if v.attributes.NSD then [Constr.psd (LinOp.neg obj)]
            else []) = [Constr.psd obj])
      ∧ (v.is_nonneg = false → v.is_nonpos = false → v.attributes.PSD = false →
          v.attributes.NSD = true →
          (if v.is_nonneg then [Constr.geq obj]
            else if v.is_nonpos then [Constr.leq obj]
            else if v.attributes.PSD then [Constr.psd obj]
            else if v.attributes.NSD then [Constr.psd (LinOp.neg obj)]
            else []) = [Constr.psd (LinOp.neg obj)])
      ∧ (v.is_nonneg = false → v.is_nonpos = false → v.attributes.PSD = false →
          v.attributes.NSD = false →
          (if v.is_nonneg then [Constr.geq obj]
            else if v.is_nonpos then [Constr.leq obj]
            else if v.attributes.PSD then [Constr.psd obj]
            else if v.attributes.NSD then [Constr.psd (LinOp.neg obj)]
            else []) = []) := by
    intro obj
    by_cases h1 : v.is_nonneg = true
    · simp [h1]
    · by_cases h2 : v.is_nonpos = true
      · simp [h1, h2]
      · by_cases h3 : v.attributes.PSD = true
        · simp [h1, h2, h3]
        · by_cases h4 : v.attributes.NSD = true
          · simp [h1, h2, h3, h4]
          · simp [h1, h2, h3, h4]
  by_cases hs : v.is_symmetric = true
  · obtain ⟨n, hshape⟩ := squareShape_eq (hwf hs)
    refine ⟨symTerm n v.id, _, canonicalize_sym v hs hshape, main (symTerm n v.id)⟩
  · have hs' : v.is_symmetric = false := by
      cases h : v.is_symmetric
      · rfl
      · exact absurd h hs
    refine ⟨LinOp.var v.shape v.id, _, canonicalize_plain v hs', main _⟩

theorem claim2_witness :
    WF exVarSym
      ∧ ∃ obj cs, exVarSym.canonicalize = some (obj, cs) ∧ cs.length ≤ 1 := by
  have hwf : WF exVarSym := fun _ => rfl
  obtain ⟨obj, cs, h1, h2, _⟩ := claim2_constraint_dispatch exVarSym hwf
  exact ⟨hwf, obj, cs, h1, h2⟩

/-- **C3.** A symmetric variable canonicalizes to the reshape to `(n,n)`
of the expansion map applied to a fresh packed `(n(n+1)/2, 1)` leaf
carrying the variable's id; otherwise the term is a plain leaf over the
full shape; concretely, shape `(2,3)` with no attributes gives a plain
`(2,3)` leaf and no constraints. -/
theorem claim3_affine_term :
    (∀ (V : Type) (v : Variable V) (n : Nat),
        v.is_symmetric = true → v.shape = [n, n] →
        ∃ cs, v.canonicalize = some (symTerm n v.id, cs))
    ∧ (∀ (V : Type) (v : Variable V), v.is_symmetric = false →
        ∃ cs, v.canonicalize = some (LinOp.var v.shape v.id, cs))
    ∧ exVar23.canonicalize = some (LinOp.var [2, 3] 1, []) := by
  refine ⟨?_, ?_, ?_⟩
  · intro V v n hs hshape
    exact ⟨_, canonicalize_sym v hs hshape⟩
  · intro V v hs
    exact ⟨_, canonicalize_plain v hs⟩
  · rfl

theorem claim3_witness :
    (exVarSym.is_symmetric = true ∧ exVarSym.shape = [3, 3])
      ∧ ∃ cs, exVarSym.canonicalize = some (symTerm 3 exVarSym.id, cs) :=
  ⟨⟨rfl, rfl⟩, claim3_affine_term.1 Unit exVarSym 3 rfl rfl⟩

/-- **C5, counterexample.** The claim says the gradient operation raises
no error even for a variable whose shape is the empty tuple; but `grad`
evaluates `self.shape[0]*self.shape[1]`, and on the well-constructed
scalar variable (the constructor's default `shape=()`) the first indexing
raises `IndexError` — the modelled `grad` is `none`. -/
theorem claim5_counterexample :
    WF scalarVar ∧ scalarVar.grad = none :=
  ⟨(fun h => nomatch h), rfl⟩

/-- **C5, amended.** For every well-constructed variable, `canonicalize`
is total; `grad` raises no error exactly when the shape has at least two
dimensions, and raises `IndexError` for scalar (empty) and vector
(1-tuple) shapes. -/
theorem claim5_amended_totality {V : Type} :
    ∀ v : Variable V, WF v →
      v.canonicalize.isSome = true
      ∧ (v.grad.isSome = true ↔ 2 ≤ v.shape.length) := by
  intro v hwf
  constructor
  · by_cases hs : v.is_symmetric = true
    · obtain ⟨n, hshape⟩ := squareShape_eq (hwf hs)
      rw [canonicalize_sym v hs hshape]
      rfl
    · have hs' : v.is_symmetric = false := by
        cases h : v.is_symmetric
        · rfl
        · exact absurd h hs
      rw [canonicalize_plain v hs']
      rfl
  · rw [Variable.grad]
    match hshape : v.shape with
    | [] => simp
    | [a] => simp
    | a :: b :: t => simp [Option.bind]

theorem claim5_witness :
    WF exVar23
      ∧ exVar23.canonicalize.isSome = true
      ∧ (exVar23.grad.isSome = true ↔ 2 ≤ exVar23.shape.length) :=
  ⟨(fun h => nomatch h), claim5_amended_totality exVar23 (fun h => nomatch h)⟩

/-- **C6.** `save_value` stores its argument unchanged as the primal
value — the packed-to-full re-expansion block is commented out — and the
`value` getter returns exactly the stored argument, for every variable,
including those with symmetric/PSD/NSD attributes set. -/
theorem claim6_save_value {V : Type} :
    ∀ (v : Variable V) (val : Option V),
      (v.save_value val).primal_value = val ∧ (v.save_value val).value = val :=
  fun _ _ => ⟨rfl, rfl⟩

/-- **C7.** When the delegated validation rejects a value, the setter
surfaces the validation error and leaves the stored primal value exactly
as it was; when validation accepts, the validated value is stored. -/
theorem claim7_set_value {V E : Type} :
    ∀ (validate : Option V → Except E (Option V)) (v : Variable V) (val : Option V),
      (∀ e, validate val = Except.error e →
        Variable.setValue validate v val = (v, some e)
          ∧ (Variable.setValue validate v val).1.primal_value = v.primal_value)
      ∧ (∀ w, validate val = Except.ok w →
          Variable.setValue validate v val = (v.save_value w, none)) := by
  intro validate v val
  constructor
  · intro e he
    rw [Variable.setValue, he]
    exact ⟨rfl, rfl⟩
  · intro w hw
    rw [Variable.setValue, hw]

theorem claim7_witness :
    (fun (_ : Option Unit) => (Except.error () : Except Unit (Option Unit))) none
        = Except.error ()
      ∧ Variable.setValue (fun _ => Except.error ()) scalarVar none = (scalarVar, some ())
      ∧ (Variable.setValue (fun _ => Except.error ()) scalarVar none).1.primal_value
        = scalarVar.primal_value :=
  ⟨rfl,
    (claim7_set_value (fun _ => Except.error ()) scalarVar none).1 () rfl⟩

/-- **C9.** For a variable of 2-tuple shape `(r, c)`, the gradient is a
mapping with the variable itself as its only key, whose value is the
sparse identity matrix of size `r*c` by `r*c`. -/
theorem claim9_grad_identity {V : Type} :
    ∀ (v : Variable V) (r c : Nat), v.shape = [r, c] →
      v.grad = some [(v, sp_eye (r * c))]
        ∧ (sp_eye (r * c)).rows = r * c
        ∧ (sp_eye (r * c)).cols = r * c
        ∧ (∀ i j, i < r * c → j < r * c →
            (sp_eye (r * c)).entry i j = if i = j then 1 else 0) := by
  intro v r c h
  refine ⟨?_, rfl, rfl, ?_⟩
  · rw [Variable.grad, h]
    rfl
  · intro i j hi _
    by_cases hij : i = j
    · subst hij
      simp [sp_eye, hi]
    · simp [sp_eye, hij]

theorem claim9_witness :
    exVar23.shape = [2, 3] ∧ exVar23.grad = some [(exVar23, sp_eye (2 * 3))] :=
  ⟨rfl, (claim9_grad_identity exVar23 2 3 rfl).1⟩

/-- `canonicalize` assigns no field of `self`: its result paired with the
post-call state. -/
def Variable.canonicalizeS {V : Type} (v : Variable V) :
    Option (LinOp × List Constr) × Variable V := (v.canonicalize, v)

/-- `grad` assigns no field of `self`. -/
def Variable.gradS {V : Type} (v : Variable V) :
    Option (List (Variable V × SpMat)) × Variable V := (v.grad, v)

/-- `name` assigns no field of `self`. -/
def Variable.nameS {V : Type} (v : Variable V) : String × Variable V := (v.name, v)

/-- The `value` getter assigns no field of `self`. -/
def Variable.valueS {V : Type} (v : Variable V) : Option V × Variable V := (v.value, v)

/-- `variables` assigns no field of `self`. -/
def Variable.variablesS {V : Type} (v : Variable V) :
    List (Variable V) × Variable V := (v.variablesOp, v)

/-- **C10.** Every read operation leaves the variable unchanged; the
setter and `save_value` mutate only the primal-value field, preserving
id, shape, name and attributes. -/
theorem claim10_frame {V E : Type} :
    ∀ (v : Variable V) (val : Option V) (validate : Option V → Except E (Option V)),
      v.canonicalizeS.2 = v ∧ v.gradS.2 = v ∧ v.nameS.2 = v ∧ v.valueS.2 = v
      ∧ v.variablesS.2 = v
      ∧ ((v.save_value val).id = v.id ∧ (v.save_value val).shape = v.shape
          ∧ (v.save_value val).vname = v.vname
          ∧ (v.save_value val).attributes = v.attributes)
      ∧ ((Variable.setValue validate v val).1.id = v.id
          ∧ (Variable.setValue validate v val).1.shape = v.shape
          ∧ (Variable.setValue validate v val).1.vname = v.vname
          ∧ (Variable.setValue validate v val).1.attributes = v.attributes) := by
  intro v val validate
  refine ⟨rfl, rfl, rfl, rfl, rfl, ⟨rfl, rfl, rfl, rfl⟩, ?_⟩
  cases h : validate val with
  | error e => simp [Variable.setValue, h]
  | ok w => simp [Variable.setValue, h, Variable.save_value]

end CvxpyVariable
